import Mathlib

/-!
Verification development for the no-template DOCX filler
(`fill_any_docx.py`): text normalization, similarity scoring,
anchor resolution over paragraph and table-cell regions, and the
ordered fill strategies.  Strings are modelled as `List Char`,
documents as lists of paragraph texts plus tables of cell texts,
and similarity scores as exact rationals.
-/

/-- Whitespace characters recognized by `str.strip` / `\s` (ASCII range). -/
def isWs (c : Char) : Bool :=
  c = ' ' || c = '\t' || c = '\n' || c = '\r' || c = '\x0b' || c = '\x0c'

/-- Placeholder dash characters: em dash, hyphen, en dash. -/
def isDashChar (c : Char) : Bool :=
  c = '—' || c = '-' || c = '–'

/-- `s.lstrip()`: drop leading whitespace. -/
def lstripWs (s : List Char) : List Char := s.dropWhile isWs

/-- `s.rstrip()`: drop trailing whitespace. -/
def rstripWs (s : List Char) : List Char := (s.reverse.dropWhile isWs).reverse

/-- `s.strip()`: drop whitespace on both ends. -/
def stripWs (s : List Char) : List Char := rstripWs (lstripWs s)

/-- `not s.strip()`: the text is blank (empty or whitespace only). -/
def isBlank (s : List Char) : Bool := stripWs s = []

/-- Worker for `collapseWs`: `prevWs` records whether the previous character
was part of a whitespace run (in which case no further space is emitted). -/
def cwAux : Bool → List Char → List Char
  | _, [] => []
  | prevWs, c :: rest =>
    if isWs c then
      if prevWs then cwAux true rest else ' ' :: cwAux true rest
    else c :: cwAux false rest

/-- `WS_RE.sub(" ", s)`: replace every maximal whitespace run by one space. -/
def collapseWs (s : List Char) : List Char := cwAux false s

/-- `norm(s)`: strip, lowercase, collapse inner whitespace runs. -/
def norm (s : List Char) : List Char :=
  collapseWs ((stripWs s).map Char.toLower)

/-- `value if value else "—"`: empty values are replaced by the em dash. -/
def valOrDash (v : List Char) : List Char := if v = [] then ['—'] else v

/-- Worker for `findRun3`, scanning left to right.  `acc` holds the scanned
prefix (reversed), `run` the length of the pending underscore run. -/
def frAux : List Char → Nat → List Char → Option (List Char × Nat × List Char)
  | acc, run, [] => if 3 ≤ run then some (acc.reverse, run, []) else none
  | acc, run, c :: rest =>
    if c = '_' then frAux acc (run + 1) rest
    else if 3 ≤ run then some (acc.reverse, run, c :: rest)
    else frAux (c :: (List.replicate run '_' ++ acc)) 0 rest

/-- Leftmost maximal run of at least 3 underscores (`UNDERSCORE_RE`):
returns `(before, runLength, after)` or `none`. -/
def findRun3 (s : List Char) : Option (List Char × Nat × List Char) :=
  frAux [] 0 s

/-- `UNDERSCORE_RE.search(text)` truthiness. -/
def hasRun (s : List Char) : Bool := (findRun3 s).isSome

/-- `replace_underscores(text, value)`: replace the first run of 3+
underscores with the value (em dash if the value is empty); otherwise
return the text unchanged. -/
def replace_underscores (text value : List Char) : List Char :=
  match findRun3 text with
  | some (x, _, y) => x ++ valOrDash value ++ y
  | none => text

/-- State machine deciding that no underscore run of length 3 or more
occurs, given a pending run of length `pend`. -/
def noRun3From (pend : Nat) : List Char → Bool
  | [] => decide (pend < 3)
  | c :: rest =>
    if c = '_' then noRun3From (pend + 1) rest
    else decide (pend < 3) && noRun3From 0 rest

/-- Worker for `stripRuns3`: drop every maximal underscore run of length 3
or more, keeping shorter runs; `pend` is the pending run length. -/
def srAux (pend : Nat) : List Char → List Char
  | [] => if 3 ≤ pend then [] else List.replicate pend '_'
  | c :: rest =>
    if c = '_' then srAux (pend + 1) rest
    else (if 3 ≤ pend then [] else List.replicate pend '_') ++ c :: srAux 0 rest

/-- Remove every maximal underscore run of length 3 or more from a text. -/
def stripRuns3 (s : List Char) : List Char := srAux 0 s

/-- The meaningful core of a text: what remains after removing underscore
runs of length 3+, placeholder dashes and whitespace. -/
def core (s : List Char) : List Char :=
  (stripRuns3 s).filter (fun c => !(isWs c) && !(isDashChar c))

/-- Length of the longest common prefix of two character lists. -/
def commonPrefixLen : List Char → List Char → Nat
  | a :: as, b :: bs => if a = b then commonPrefixLen as bs + 1 else 0
  | _, _ => 0

/-- One step of the longest-match search: a candidate block start `ij`
displaces the current best only when its matching run is strictly longer. -/
def flStep (a b : List Char) (best : Nat × Nat × Nat) (ij : Nat × Nat) :
    Nat × Nat × Nat :=
  let k := commonPrefixLen (a.drop ij.1) (b.drop ij.2)
  if best.2.2 < k then (ij.1, ij.2, k) else best

/-- `SequenceMatcher.find_longest_match` over whole lists: the longest
matching block `(i, j, k)`, ties broken by least `i`, then least `j`. -/
def findLongest (a b : List Char) : Nat × Nat × Nat :=
  ((List.range a.length).flatMap
      (fun i => (List.range b.length).map (fun j => (i, j)))).foldl
    (flStep a b) (0, 0, 0)

/-- Total size of all matching blocks (Ratcliff/Obershelp recursion on the
segments left and right of the longest match); `fuel` bounds the recursion
depth and `a.length` suffices. -/
def matchTotal : Nat → List Char → List Char → Nat
  | 0, _, _ => 0
  | fuel + 1, a, b =>
    let t := findLongest a b
    if t.2.2 = 0 then 0
    else
      t.2.2 + matchTotal fuel (a.take t.1) (b.take t.2.1)
        + matchTotal fuel (a.drop (t.1 + t.2.2)) (b.drop (t.2.1 + t.2.2))

/-- `SequenceMatcher.ratio()`: `2 * M / (len a + len b)`, and 1 when both
inputs are empty. -/
def ratio (a b : List Char) : ℚ :=
  if a.length + b.length = 0 then 1
  else mkRat (2 * matchTotal a.length a b) (a.length + b.length)

/-- `sim(a, b)`: 0 when either raw input is empty, else the ratio of the
normalized strings. -/
def sim (a b : List Char) : ℚ :=
  if a = [] ∨ b = [] then 0 else ratio (norm a) (norm b)

/-- A document: top-level paragraph texts, plus tables given as
rows of cell texts, in document order. -/
structure Doc where
  paras : List (List Char)
  tables : List (List (List (List Char)))
deriving DecidableEq

/-- Identity of a text-bearing region: a paragraph position, or a cell
coordinate (table, row, column). -/
inductive RegionRef where
  | para (i : Nat)
  | cell (t r c : Nat)
deriving DecidableEq

/-- Text of paragraph `i` (empty when out of range). -/
def paraText (d : Doc) (i : Nat) : List Char := d.paras.getD i []

/-- Table `t` of the document (empty when out of range). -/
def tableOf (d : Doc) (t : Nat) : List (List (List Char)) := d.tables.getD t []

/-- Row `r` of table `t` (empty when out of range). -/
def rowOf (d : Doc) (t r : Nat) : List (List Char) := (tableOf d t).getD r []

/-- Text of the cell at `(t, r, c)` (empty when out of range). -/
def cellText (d : Doc) (t r c : Nat) : List Char := (rowOf d t r).getD c []

/-- Text of the region a reference denotes. -/
def textOf (d : Doc) : RegionRef → List Char
  | .para i => paraText d i
  | .cell t r c => cellText d t r c

/-- The reference denotes an existing region of the document. -/
def validRef (d : Doc) : RegionRef → Prop
  | .para i => i < d.paras.length
  | .cell t r c => t < d.tables.length ∧ r < (tableOf d t).length ∧ c < (rowOf d t r).length

/-- The scan order of `find_best_anchor`: all paragraphs in document
order (`iter_paragraphs`), then all cells in (table, row, column) order
(`iter_cells`), each paired with its current text. -/
def regions (d : Doc) : List (RegionRef × List Char) :=
  ((List.range d.paras.length).map (fun i => (RegionRef.para i, paraText d i)))
    ++ ((List.range d.tables.length).flatMap (fun t =>
        (List.range (tableOf d t).length).flatMap (fun r =>
          (List.range (rowOf d t r).length).map (fun c =>
            (RegionRef.cell t r c, cellText d t r c)))))

/-- A resolved match: the chosen region and the score that won. -/
structure Match where
  ref : RegionRef
  score : ℚ
deriving DecidableEq

/-- Effective score of one candidate region: `sim` of the normalized
anchor against the text, raised to at least 0.95 when the normalized
anchor is a non-empty substring of the normalized text. -/
def scoreOf (anchorN text : List Char) : ℚ :=
  let score := sim anchorN text
  if anchorN ≠ [] ∧ anchorN <:+: norm text then max score (mkRat 95 100) else score

/-- One step of the best-candidate loop: blank regions are skipped, and a
candidate replaces the current best only on a strictly greater score. -/
def stepBest (anchorN : List Char) (best : Option Match) (rt : RegionRef × List Char) :
    Option Match :=
  if isBlank rt.2 then best
  else
    let sc := scoreOf anchorN rt.2
    match best with
    | none => some ⟨rt.1, sc⟩
    | some b => if b.score < sc then some ⟨rt.1, sc⟩ else some b

/-- `find_best_anchor(doc, anchor)` with the default `min_score = 0.62`:
scan all regions, keep the best, return `none` below the threshold. -/
def find_best_anchor (d : Doc) (anchor : List Char) : Option Match :=
  match (regions d).foldl (stepBest (norm anchor)) none with
  | none => none
  | some b => if b.score < mkRat 62 100 then none else some b

/-- `fill_paragraph(doc, p, value)` on the paragraph at position `idx`:
underscore fill, else colon fill, else next-paragraph fill, else append;
returns the updated paragraph list and the mutation flag. -/
def fill_paragraph (paras : List (List Char)) (idx : Nat) (value : List Char) :
    List (List Char) × Bool :=
  let original := paras.getD idx []
  if stripWs original = [] then (paras, false)
  else
    let newText := replace_underscores original value
    if newText ≠ original then (paras.set idx newText, true)
    else if ':' ∈ original ∧
        (let right := (original.dropWhile (fun c => c != ':')).tail
         stripWs right = [] ∨ hasRun right ∨
           stripWs right = ['—'] ∨ stripWs right = ['-'] ∨ stripWs right = ['–']) then
      (paras.set idx
        (stripWs (original.takeWhile (fun c => c != ':')) ++ ':' :: ' ' :: valOrDash value),
       true)
    else if idx + 1 < paras.length ∧
        (stripWs (paras.getD (idx + 1) []) = [] ∨ hasRun (paras.getD (idx + 1) [])) then
      (paras.set (idx + 1)
        (let t1 := replace_underscores (paras.getD (idx + 1) []) (valOrDash value)
         if stripWs t1 = [] then valOrDash value else t1),
       true)
    else (paras.set idx (rstripWs original ++ ' ' :: valOrDash value), true)

/-- Replace the text of the cell at `(t, r, c)`. -/
def setCell (d : Doc) (t r c : Nat) (txt : List Char) : Doc :=
  { d with
    tables := d.tables.set t ((tableOf d t).set r ((rowOf d t r).set c txt)) }

/-- `fill_table_cell_right(match, value)` for the matched cell `(t, r, c)`:
write into the right neighbor if the row has one (replace underscores,
else overwrite blank/dash, else append); otherwise fall back to the
matched cell itself (replace underscores, else append).  Always reports
a mutation. -/
def fill_table_cell_right (d : Doc) (t r c : Nat) (value : List Char) : Doc × Bool :=
  if c + 1 < (rowOf d t r).length then
    let txt := cellText d t r (c + 1)
    let newTxt :=
      if hasRun txt then replace_underscores txt (valOrDash value)
      else if stripWs txt = [] ∨ stripWs txt = ['—'] ∨ stripWs txt = ['-'] ∨
          stripWs txt = ['–'] then valOrDash value
      else rstripWs txt ++ ' ' :: valOrDash value
    (setCell d t r (c + 1) newTxt, true)
  else
    let ctxt := cellText d t r c
    let t1 := replace_underscores ctxt (valOrDash value)
    let newC := if t1 = ctxt then rstripWs ctxt ++ ' ' :: valOrDash value else t1
    (setCell d t r c newC, true)

/-- Dispatch of the fill engine on the matched region kind. -/
def applyMatch (d : Doc) (m : Match) (value : List Char) : Doc :=
  match m.ref with
  | .cell t r c => (fill_table_cell_right d t r c value).1
  | .para i => { d with paras := (fill_paragraph d.paras i value).1 }

/-- The orchestrator loop of `fill_docx`: anchors in input order, empty
labels skipped, unresolved labels accumulated in input order; a resolved
anchor is filled and processing continues on the mutated document. -/
def fill_docx (d : Doc) : List (List Char × List Char) → Doc × List (List Char)
  | [] => (d, [])
  | (anchor, value) :: rest =>
    if anchor = [] then fill_docx d rest
    else
      match find_best_anchor d anchor with
      | none =>
        let out := fill_docx d rest
        (out.1, anchor :: out.2)
      | some m => fill_docx (applyMatch d m value) rest

/-- Strategy 1 (underscore fill) as a standalone guarded action: applies
exactly when replacing the first underscore run changes the text. -/
def tryUnderscoreFill (paras : List (List Char)) (idx : Nat) (value : List Char) :
    Option (List (List Char)) :=
  let orig := paras.getD idx []
  let nt := replace_underscores orig value
  if nt ≠ orig then some (paras.set idx nt) else none

/-- Strategy 2 (colon fill) as a standalone guarded action: applies when
the text has a colon and everything after the first colon is blank, an
underscore run, or a lone placeholder dash. -/
def tryColonFill (paras : List (List Char)) (idx : Nat) (value : List Char) :
    Option (List (List Char)) :=
  let orig := paras.getD idx []
  if ':' ∈ orig ∧
      (let right := (orig.dropWhile (fun c => c != ':')).tail
       stripWs right = [] ∨ hasRun right ∨
         stripWs right = ['—'] ∨ stripWs right = ['-'] ∨ stripWs right = ['–']) then
    some (paras.set idx
      (stripWs (orig.takeWhile (fun c => c != ':')) ++ ':' :: ' ' :: valOrDash value))
  else none

/-- Strategy 3 (next-paragraph fill) as a standalone guarded action:
applies when a following paragraph exists and is blank or holds an
underscore run. -/
def tryNextFill (paras : List (List Char)) (idx : Nat) (value : List Char) :
    Option (List (List Char)) :=
  if idx + 1 < paras.length ∧
      (stripWs (paras.getD (idx + 1) []) = [] ∨ hasRun (paras.getD (idx + 1) [])) then
    some (paras.set (idx + 1)
      (let t1 := replace_underscores (paras.getD (idx + 1) []) (valOrDash value)
       if stripWs t1 = [] then valOrDash value else t1))
  else none

/-- Strategy 4 (append fallback), always applicable. -/
def appendFill (paras : List (List Char)) (idx : Nat) (value : List Char) :
    List (List Char) :=
  paras.set idx (rstripWs (paras.getD idx []) ++ ' ' :: valOrDash value)

/-- The paragraph strategy chain in its specified order, first applicable
strategy wins, the append fallback closing the chain. -/
def chainFill (paras : List (List Char)) (idx : Nat) (value : List Char) :
    List (List Char) × Bool :=
  match tryUnderscoreFill paras idx value with
  | some ps => (ps, true)
  | none =>
    match tryColonFill paras idx value with
    | some ps => (ps, true)
    | none =>
      match tryNextFill paras idx value with
      | some ps => (ps, true)
      | none => (appendFill paras idx value, true)

/-- The non-blank regions in scan order, each with its effective
(boosted) score for the given anchor. -/
def scoredRegions (d : Doc) (anchor : List Char) : List (RegionRef × ℚ) :=
  ((regions d).filter (fun rt => !(isBlank rt.2))).map
    (fun rt => (rt.1, scoreOf (norm anchor) rt.2))

theorem getD_set_split {α : Type} (l : List α) (i j : Nat) (a dflt : α) :
    (l.set i a).getD j dflt =
      if i = j ∧ i < l.length then a else l.getD j dflt := by
  simp only [List.getD_eq_getElem?_getD, List.getElem?_set]
  by_cases hij : i = j
  · subst hij
    by_cases hlen : i < l.length
    · simp [hlen]
    · simp [hlen, List.getElem?_eq_none (le_of_not_lt hlen)]
  · simp [hij]

theorem paraText_setCell (d : Doc) (t r k : Nat) (txt : List Char) (i : Nat) :
    paraText (setCell d t r k txt) i = paraText d i := rfl

theorem cellText_setCell_ne (d : Doc) (t r k : Nat) (txt : List Char)
    (tc rc cc : Nat) (h : (tc, rc, cc) ≠ (t, r, k)) :
    cellText (setCell d t r k txt) tc rc cc = cellText d tc rc cc := by
  have h3 : ¬(t = tc ∧ r = rc ∧ k = cc) := by
    rintro ⟨h1, h2, h4⟩; exact h (by simp [h1, h2, h4])
  show (((d.tables.set t ((tableOf d t).set r ((rowOf d t r).set k txt))).getD tc
      []).getD rc []).getD cc [] = cellText d tc rc cc
  rw [getD_set_split]
  by_cases h1 : t = tc ∧ t < d.tables.length
  · obtain ⟨ht, htl⟩ := h1
    subst ht
    rw [if_pos ⟨rfl, htl⟩, getD_set_split]
    by_cases h2 : r = rc ∧ r < (tableOf d t).length
    · obtain ⟨hr, hrl⟩ := h2
      subst hr
      rw [if_pos ⟨rfl, hrl⟩, getD_set_split]
      have hck : ¬(k = cc ∧ k < (rowOf d t r).length) := by
        rintro ⟨hc, _⟩; exact h3 ⟨rfl, rfl, hc⟩
      rw [if_neg hck]
      rfl
    · rw [if_neg h2]
      rfl
  · rw [if_neg h1]
    rfl

theorem cellText_setCell_self (d : Doc) (t r k : Nat) (txt : List Char)
    (ht : t < d.tables.length) (hr : r < (tableOf d t).length)
    (hk : k < (rowOf d t r).length) :
    cellText (setCell d t r k txt) t r k = txt := by
  show (((d.tables.set t ((tableOf d t).set r ((rowOf d t r).set k txt))).getD t
      []).getD r []).getD k [] = txt
  rw [getD_set_split, if_pos ⟨rfl, ht⟩, getD_set_split, if_pos ⟨rfl, hr⟩,
    getD_set_split, if_pos ⟨rfl, hk⟩]

/-- C10: on a paragraph whose text is blank (empty or whitespace only),
`fill_paragraph` returns `False` and performs no mutation; the append
fallback and the mutated-true guarantee hold only for non-blank text. -/
theorem fill_paragraph_blank_noop (paras : List (List Char)) (idx : Nat)
    (value : List Char) (h : stripWs (paras.getD idx []) = []) :
    fill_paragraph paras idx value = (paras, false) := by
  simp only [fill_paragraph]
  rw [if_pos h]

theorem fill_paragraph_blank_noop_witness :
    stripWs (([[' ']] : List (List Char)).getD 0 []) = [] ∧
      fill_paragraph [[' ']] 0 ['x'] = ([[' ']], false) :=
  ⟨by decide, fill_paragraph_blank_noop [[' ']] 0 ['x'] (by decide)⟩

theorem replace_underscores_empty_value (text : List Char) :
    replace_underscores text [] = replace_underscores text ['—'] := by
  unfold replace_underscores
  rfl

/-- C7: on every fill path, an empty value behaves exactly like the
placeholder dash, so the text written is never the empty string. -/
theorem empty_value_writes_dash :
    (∀ text, replace_underscores text [] = replace_underscores text ['—'])
    ∧ (∀ paras idx, fill_paragraph paras idx [] = fill_paragraph paras idx ['—'])
    ∧ (∀ d t r c, fill_table_cell_right d t r c [] = fill_table_cell_right d t r c ['—']) := by
  have hv : valOrDash [] = valOrDash ['—'] := rfl
  refine ⟨replace_underscores_empty_value, fun paras idx => ?_, fun d t r c => ?_⟩
  · simp only [fill_paragraph, replace_underscores_empty_value, hv]
  · simp only [fill_table_cell_right, hv]

/-- C6: when an anchor fails to resolve, the orchestrator records its
label (in input order), leaves the document unchanged for that anchor,
raises no error, and continues with the remaining anchors; earlier
mutations are not rolled back. -/
theorem fill_docx_unresolved_step (d : Doc) (anchor value : List Char)
    (rest : List (List Char × List Char))
    (h1 : anchor ≠ []) (h2 : find_best_anchor d anchor = none) :
    fill_docx d ((anchor, value) :: rest) =
      ((fill_docx d rest).1, anchor :: (fill_docx d rest).2) := by
  conv_lhs => rw [fill_docx]
  rw [if_neg h1, h2]

set_option maxRecDepth 100000 in
theorem fill_docx_unresolved_step_witness :
    ("zzz".toList ≠ [] ∧
        find_best_anchor ⟨["Hello World".toList], []⟩ "zzz".toList = none) ∧
      fill_docx ⟨["Hello World".toList], []⟩
          [("zzz".toList, "v".toList), ("q".toList, "w".toList)] =
        ((fill_docx ⟨["Hello World".toList], []⟩ [("q".toList, "w".toList)]).1,
          "zzz".toList ::
            (fill_docx ⟨["Hello World".toList], []⟩ [("q".toList, "w".toList)]).2) :=
  ⟨⟨by decide, by decide⟩,
    fill_docx_unresolved_step ⟨["Hello World".toList], []⟩ "zzz".toList "v".toList
      [("q".toList, "w".toList)] (by decide) (by decide)⟩

/-- C4: with a right neighbor present, the cell fill mutates only the
right-neighbor cell `(r, c+1)` and returns `true`, leaving the matched
cell and every other paragraph and cell unchanged; in every case the
cell fill reports a mutation; concretely, an empty right neighbor at
(row 2, col 1) receives the value and the matched cell is unchanged. -/
theorem cell_fill_targets_right_neighbor :
    (∀ d t r c value, t < d.tables.length → r < (tableOf d t).length →
      c + 1 < (rowOf d t r).length →
      (fill_table_cell_right d t r c value).2 = true
      ∧ (∀ i, paraText (fill_table_cell_right d t r c value).1 i = paraText d i)
      ∧ (∀ tc rc cc, (tc, rc, cc) ≠ (t, r, c + 1) →
          cellText (fill_table_cell_right d t r c value).1 tc rc cc =
            cellText d tc rc cc))
    ∧ (∀ d t r c value, (fill_table_cell_right d t r c value).2 = true)
    ∧ (cellText (fill_table_cell_right
          ⟨[], [[["Name".toList, "X".toList], ["mid".toList],
                 ["Date of birth".toList, []]]]⟩ 0 2 0 "1990-01-01".toList).1
          0 2 1 = "1990-01-01".toList
       ∧ cellText (fill_table_cell_right
          ⟨[], [[["Name".toList, "X".toList], ["mid".toList],
                 ["Date of birth".toList, []]]]⟩ 0 2 0 "1990-01-01".toList).1
          0 2 0 = "Date of birth".toList) := by
  refine ⟨fun d t r c value ht hr hc => ?_, fun d t r c value => ?_, by decide, by decide⟩
  · have hbranch : fill_table_cell_right d t r c value =
        (setCell d t r (c + 1)
          (let txt := cellText d t r (c + 1)
           if hasRun txt then replace_underscores txt (valOrDash value)
           else if stripWs txt = [] ∨ stripWs txt = ['—'] ∨ stripWs txt = ['-'] ∨
               stripWs txt = ['–'] then valOrDash value
           else rstripWs txt ++ ' ' :: valOrDash value), true) := by
      simp only [fill_table_cell_right]
      rw [if_pos hc]
    rw [hbranch]
    exact ⟨rfl, fun i => paraText_setCell _ _ _ _ _ _,
      fun tc rc cc hne => cellText_setCell_ne _ _ _ _ _ _ _ _ hne⟩
  · simp only [fill_table_cell_right]
    by_cases hc : c + 1 < (rowOf d t r).length
    · rw [if_pos hc]
    · rw [if_neg hc]

theorem cell_fill_targets_right_neighbor_witness :
    (0 < (⟨[], [[["A".toList, "B".toList]]]⟩ : Doc).tables.length
      ∧ 0 < (tableOf ⟨[], [[["A".toList, "B".toList]]]⟩ 0).length
      ∧ 0 + 1 < (rowOf ⟨[], [[["A".toList, "B".toList]]]⟩ 0 0).length) ∧
    ((fill_table_cell_right ⟨[], [[["A".toList, "B".toList]]]⟩ 0 0 0 "v".toList).2 = true
      ∧ (∀ i, paraText (fill_table_cell_right ⟨[], [[["A".toList, "B".toList]]]⟩
          0 0 0 "v".toList).1 i = paraText ⟨[], [[["A".toList, "B".toList]]]⟩ i)
      ∧ (∀ tc rc cc, (tc, rc, cc) ≠ (0, 0, 0 + 1) →
          cellText (fill_table_cell_right ⟨[], [[["A".toList, "B".toList]]]⟩
              0 0 0 "v".toList).1 tc rc cc =
            cellText ⟨[], [[["A".toList, "B".toList]]]⟩ tc rc cc)) :=
  ⟨⟨by decide, by decide, by decide⟩,
    cell_fill_targets_right_neighbor.1 ⟨[], [[["A".toList, "B".toList]]]⟩ 0 0 0
      "v".toList (by decide) (by decide) (by decide)⟩

theorem chainFill_snd (p : List (List Char)) (i : Nat) (v : List Char) :
    (chainFill p i v).2 = true := by
  unfold chainFill
  cases tryUnderscoreFill p i v
  · cases tryColonFill p i v
    · cases tryNextFill p i v
      · rfl
      · rfl
    · rfl
  · rfl

/-- C3: on a non-blank paragraph the four strategies (underscore fill,
colon fill, next-paragraph fill, append fallback) are evaluated in that
fixed order, the first applicable one fires, and the call reports a
mutation; on "Full Name: _________" with value "Ana Popescu" the
underscore fill fires (before the also-applicable colon fill) and yields
"Full Name: Ana Popescu". -/
theorem paragraph_strategy_chain :
    (∀ paras idx value, stripWs (paras.getD idx []) ≠ [] →
      fill_paragraph paras idx value = chainFill paras idx value
      ∧ (fill_paragraph paras idx value).2 = true)
    ∧ fill_paragraph ["Full Name: _________".toList] 0 "Ana Popescu".toList
        = (["Full Name: Ana Popescu".toList], true)
    ∧ (tryUnderscoreFill ["Full Name: _________".toList] 0 "Ana Popescu".toList).isSome
        = true
    ∧ (tryColonFill ["Full Name: _________".toList] 0 "Ana Popescu".toList).isSome
        = true := by
  refine ⟨fun paras idx value hnb => ?_, by decide, by decide, by decide⟩
  have heq : fill_paragraph paras idx value = chainFill paras idx value := by
    simp only [fill_paragraph, chainFill, tryUnderscoreFill, tryColonFill,
      tryNextFill, appendFill]
    rw [if_neg hnb]
    split_ifs <;> rfl
  exact ⟨heq, by rw [heq]; exact chainFill_snd paras idx value⟩

theorem paragraph_strategy_chain_witness :
    stripWs ((["ab:".toList] : List (List Char)).getD 0 []) ≠ [] ∧
      (fill_paragraph ["ab:".toList] 0 "v".toList =
          chainFill ["ab:".toList] 0 "v".toList
        ∧ (fill_paragraph ["ab:".toList] 0 "v".toList).2 = true) :=
  ⟨by decide, paragraph_strategy_chain.1 ["ab:".toList] 0 "v".toList (by decide)⟩

theorem commonPrefixLen_le_left (a : List Char) :
    ∀ b, commonPrefixLen a b ≤ a.length := by
  induction a with
  | nil => intro b; cases b <;> simp [commonPrefixLen]
  | cons x as ih =>
    intro b
    cases b with
    | nil => simp [commonPrefixLen]
    | cons y bs =>
      simp only [commonPrefixLen, List.length_cons]
      split_ifs
      · exact Nat.succ_le_succ (ih bs)
      · omega

theorem commonPrefixLen_le_right (a : List Char) :
    ∀ b, commonPrefixLen a b ≤ b.length := by
  induction a with
  | nil => intro b; cases b <;> simp [commonPrefixLen]
  | cons x as ih =>
    intro b
    cases b with
    | nil => simp [commonPrefixLen]
    | cons y bs =>
      simp only [commonPrefixLen, List.length_cons]
      split_ifs
      · exact Nat.succ_le_succ (ih bs)
      · omega

theorem flStep_fold_bounds (a b : List Char) (l : List (Nat × Nat))
    (hmem : ∀ ij ∈ l, ij.1 < a.length ∧ ij.2 < b.length) :
    ∀ init : Nat × Nat × Nat,
      init.1 + init.2.2 ≤ a.length → init.2.1 + init.2.2 ≤ b.length →
      (l.foldl (flStep a b) init).1 + (l.foldl (flStep a b) init).2.2 ≤ a.length
      ∧ (l.foldl (flStep a b) init).2.1 + (l.foldl (flStep a b) init).2.2 ≤ b.length := by
  induction l with
  | nil => intro init h1 h2; exact ⟨h1, h2⟩
  | cons ij rest ih =>
    intro init h1 h2
    have hij := hmem ij (List.mem_cons_self _ _)
    have hrest : ∀ p ∈ rest, p.1 < a.length ∧ p.2 < b.length :=
      fun p hp => hmem p (List.mem_cons_of_mem _ hp)
    simp only [List.foldl_cons]
    have hk1 := commonPrefixLen_le_left (a.drop ij.1) (b.drop ij.2)
    have hk2 := commonPrefixLen_le_right (a.drop ij.1) (b.drop ij.2)
    simp only [List.length_drop] at hk1 hk2
    have hstep : (flStep a b init ij).1 + (flStep a b init ij).2.2 ≤ a.length
        ∧ (flStep a b init ij).2.1 + (flStep a b init ij).2.2 ≤ b.length := by
      unfold flStep
      dsimp only
      split_ifs
      · dsimp only
        omega
      · exact ⟨h1, h2⟩
    exact ih hrest (flStep a b init ij) hstep.1 hstep.2

theorem findLongest_bounds (a b : List Char) :
    (findLongest a b).1 + (findLongest a b).2.2 ≤ a.length
    ∧ (findLongest a b).2.1 + (findLongest a b).2.2 ≤ b.length := by
  unfold findLongest
  refine flStep_fold_bounds a b _ ?_ (0, 0, 0) (Nat.zero_le _) (Nat.zero_le _)
  intro ij hij
  rcases List.mem_flatMap.1 hij with ⟨i, hi, hmap⟩
  rcases List.mem_map.1 hmap with ⟨j, hj, rfl⟩
  exact ⟨List.mem_range.1 hi, List.mem_range.1 hj⟩

theorem matchTotal_le (fuel : Nat) :
    ∀ a b : List Char, matchTotal fuel a b ≤ a.length
      ∧ matchTotal fuel a b ≤ b.length := by
  induction fuel with
  | zero => intro a b; simp [matchTotal]
  | succ n ih =>
    intro a b
    simp only [matchTotal]
    split_ifs with hk
    · simp
    · obtain ⟨h1, h2⟩ := findLongest_bounds a b
      obtain ⟨ta1, tb1⟩ := ih (a.take (findLongest a b).1) (b.take (findLongest a b).2.1)
      obtain ⟨ta2, tb2⟩ := ih (a.drop ((findLongest a b).1 + (findLongest a b).2.2))
        (b.drop ((findLongest a b).2.1 + (findLongest a b).2.2))
      simp only [List.length_take, List.length_drop] at ta1 tb1 ta2 tb2
      constructor <;> omega

theorem findLongest_nil_right (a : List Char) : findLongest a [] = (0, 0, 0) := by
  unfold findLongest
  have h : (List.range a.length).flatMap
      (fun i => (List.range ([] : List Char).length).map (fun j => (i, j))) = [] := by
    simp
  rw [h]
  rfl

theorem matchTotal_nil_right (fuel : Nat) (a : List Char) :
    matchTotal fuel a [] = 0 := by
  cases fuel with
  | zero => rfl
  | succ n =>
    simp only [matchTotal, findLongest_nil_right]
    rfl

theorem ratio_bounds (a b : List Char) : 0 ≤ ratio a b ∧ ratio a b ≤ 1 := by
  unfold ratio
  split_ifs with h
  · norm_num
  · obtain ⟨hla, hlb⟩ := matchTotal_le a.length a b
    rw [Rat.mkRat_eq_div]
    constructor
    · apply div_nonneg <;> positivity
    · rw [div_le_one (by positivity)]
      push_cast
      have : 2 * matchTotal a.length a b ≤ a.length + b.length := by omega
      exact_mod_cast this

theorem ratio_nil_left (b : List Char) (h : b ≠ []) : ratio [] b = 0 := by
  unfold ratio
  rw [if_neg (by simp [List.length_eq_zero, h])]
  simp only [List.length_nil, matchTotal]
  rw [Rat.mkRat_eq_div]
  simp

theorem ratio_nil_right (a : List Char) (h : a ≠ []) : ratio a [] = 0 := by
  unfold ratio
  rw [if_neg (by simp [List.length_eq_zero, h])]
  rw [matchTotal_nil_right, Rat.mkRat_eq_div]
  simp

/-- C9 counterexample: two whitespace-only inputs are non-empty raw
strings whose normalizations are both empty, yet `sim` returns 1, not 0
(the emptiness test runs on the raw inputs, before normalization). -/
theorem sim_whitespace_counterexample :
    norm [' '] = [] ∧ ([' '] : List Char) ≠ [] ∧ sim [' '] [' '] = 1
    ∧ sim [' '] [' '] ≠ 0 := by
  refine ⟨by decide, by decide, by decide, by decide⟩

/-- C9 (amended): `sim` always lies in `[0, 1]`; it returns 0 when either
raw input is empty and when exactly one of the two inputs normalizes to
empty; but when both raw inputs are non-empty and both normalize to
empty, it returns 1. -/
theorem sim_bounds_amended :
    (∀ a b : List Char, 0 ≤ sim a b ∧ sim a b ≤ 1)
    ∧ (∀ a b : List Char, a = [] ∨ b = [] → sim a b = 0)
    ∧ (∀ a b : List Char, norm a = [] → norm b ≠ [] → sim a b = 0)
    ∧ (∀ a b : List Char, norm a ≠ [] → norm b = [] → sim a b = 0)
    ∧ (∀ a b : List Char, a ≠ [] → b ≠ [] → norm a = [] → norm b = [] →
        sim a b = 1) := by
  refine ⟨fun a b => ?_, fun a b h => ?_, fun a b h1 h2 => ?_, fun a b h1 h2 => ?_,
    fun a b ha hb h1 h2 => ?_⟩
  · unfold sim
    split_ifs
    · norm_num
    · exact ratio_bounds (norm a) (norm b)
  · unfold sim
    rw [if_pos h]
  · unfold sim
    split_ifs with h
    · rfl
    · rw [h1]
      exact ratio_nil_left (norm b) h2
  · unfold sim
    split_ifs with h
    · rfl
    · rw [h2]
      exact ratio_nil_right (norm a) h1
  · unfold sim
    rw [if_neg (by simp [ha, hb]), h1, h2]
    rfl

theorem sim_bounds_amended_witness :
    (norm [' '] = [] ∧ norm ['x'] ≠ []) ∧ sim [' '] ['x'] = 0 :=
  ⟨⟨by decide, by decide⟩, sim_bounds_amended.2.2.1 [' '] ['x'] (by decide) (by decide)⟩

theorem frAux_some_decomp (s : List Char) :
    ∀ acc run x n y, frAux acc run s = some (x, n, y) →
      x ++ List.replicate n '_' ++ y = acc.reverse ++ List.replicate run '_' ++ s
      ∧ 3 ≤ n ∧ y.head? ≠ some '_' := by
  induction s with
  | nil =>
    intro acc run x n y h
    simp only [frAux] at h
    split_ifs at h with h3
    · obtain ⟨rfl, rfl, rfl⟩ : acc.reverse = x ∧ run = n ∧ ([] : List Char) = y := by
        injection h with h; injection h with h1 h2; injection h2 with h2 h3
        exact ⟨h1, h2, h3⟩
      exact ⟨rfl, h3, by simp⟩
  | cons c rest ih =>
    intro acc run x n y h
    simp only [frAux] at h
    split_ifs at h with hc h3
    · subst hc
      obtain ⟨hd, hn, hy⟩ := ih acc (run + 1) x n y h
      refine ⟨?_, hn, hy⟩
      rw [hd, List.replicate_succ' ]
      simp
    · obtain ⟨rfl, rfl, rfl⟩ : acc.reverse = x ∧ run = n ∧ c :: rest = y := by
        injection h with h; injection h with h1 h2; injection h2 with h2 h3
        exact ⟨h1, h2, h3⟩
      refine ⟨rfl, h3, ?_⟩
      simp only [List.head?_cons, ne_eq, Option.some.injEq]
      exact fun he => hc he
    · obtain ⟨hd, hn, hy⟩ := ih (c :: (List.replicate run '_' ++ acc)) 0 x n y h
      refine ⟨?_, hn, hy⟩
      rw [hd]
      simp [List.reverse_replicate]

theorem frAux_none_iff (s : List Char) :
    ∀ acc run, frAux acc run s = none ↔ noRun3From run s = true := by
  induction s with
  | nil =>
    intro acc run
    simp only [frAux, noRun3From]
    split_ifs with h3
    · simp
      omega
    · simp
      omega
  | cons c rest ih =>
    intro acc run
    simp only [frAux, noRun3From]
    split_ifs with hc h3
    · exact ih acc (run + 1)
    · simp
      omega
    · rw [ih (c :: (List.replicate run '_' ++ acc)) 0]
      have : decide (run < 3) = true := by simp; omega
      rw [this]
      simp

theorem noRun3From_ge3 (s : List Char) : ∀ p, 3 ≤ p → noRun3From p s = false := by
  induction s with
  | nil =>
    intro p hp
    simp only [noRun3From]
    simp
    omega
  | cons c rest ih =>
    intro p hp
    simp only [noRun3From]
    split_ifs with hc
    · exact ih (p + 1) (by omega)
    · have : decide (p < 3) = false := by simp; omega
      rw [this]
      simp

theorem noRun3From_triple (a : List Char) :
    ∀ p b, noRun3From p (a ++ '_' :: '_' :: '_' :: b) = false := by
  induction a with
  | nil =>
    intro p b
    simp only [List.nil_append, noRun3From, if_pos rfl]
    exact noRun3From_ge3 b (p + 1 + 1 + 1) (by omega)
  | cons c a' ih =>
    intro p b
    simp only [List.cons_append, noRun3From]
    split_ifs with hc
    · exact ih (p + 1) b
    · simp only [List.append_eq]
      rw [ih 0 b]
      simp

theorem noRun3From_sep (a : List Char) :
    ∀ p c b, c ≠ '_' →
      noRun3From p (a ++ c :: b) = (noRun3From p a && noRun3From 0 b) := by
  induction a with
  | nil =>
    intro p c b hc
    simp only [List.nil_append, noRun3From]
    rw [if_neg hc]
  | cons e a' ih =>
    intro p c b hc
    simp only [List.cons_append, noRun3From]
    split_ifs with he
    · exact ih (p + 1) c b hc
    · simp only [List.append_eq]
      rw [ih 0 c b hc, Bool.and_assoc]

theorem noRun3From_rep_absorb : ∀ (k : Nat) (p : Nat) (t : List Char),
    noRun3From p (List.replicate k '_' ++ t) = noRun3From (p + k) t := by
  intro k
  induction k with
  | zero => intro p t; simp [noRun3From]
  | succ m ih =>
    intro p t
    rw [List.replicate_succ]
    simp only [List.cons_append, noRun3From, if_pos rfl, List.append_eq, if_true]
    rw [ih (p + 1) t]
    congr 1
    omega

theorem noRun3From_single (p : Nat) (c : Char) (hc : c ≠ '_') (hp : p < 3) :
    noRun3From p [c] = true := by
  simp only [noRun3From]
  rw [if_neg hc]
  simp only [noRun3From, Bool.and_eq_true, decide_eq_true_eq]
  omega

theorem findRun3_ne_none_iff (s : List Char) :
    findRun3 s ≠ none ↔ (['_', '_', '_'] <:+: s) := by
  constructor
  · intro h
    cases hfr : findRun3 s with
    | none => exact absurd hfr h
    | some t =>
      obtain ⟨x, n, y⟩ := t
      obtain ⟨hd, hn, _⟩ := frAux_some_decomp s [] 0 x n y hfr
      simp only [List.reverse_nil, List.replicate, List.nil_append] at hd
      refine ⟨x, List.replicate (n - 3) '_' ++ y, ?_⟩
      have hrep : List.replicate n '_' = ['_', '_', '_'] ++ List.replicate (n - 3) '_' := by
        conv_lhs => rw [show n = 3 + (n - 3) by omega]
        rw [List.replicate_add]
        rfl
      rw [← hd, hrep]
      simp
  · rintro ⟨u, v, rfl⟩
    intro hnone
    have h1 := (frAux_none_iff _ [] 0).1 hnone
    have h2 := noRun3From_triple u 0 v
    have hshape : u ++ ['_', '_', '_'] ++ v = u ++ '_' :: '_' :: '_' :: v := by simp
    rw [hshape] at h1
    rw [h2] at h1
    exact Bool.false_ne_true h1

theorem frAux_some_prefixProps (s : List Char) :
    ∀ acc run x n y, noRun3From 0 acc.reverse = true → acc.head? ≠ some '_' →
      frAux acc run s = some (x, n, y) →
      noRun3From 0 x = true ∧ x.getLast? ≠ some '_' := by
  induction s with
  | nil =>
    intro acc run x n y hacc hhead h
    simp only [frAux] at h
    split_ifs at h with h3
    · simp only [Option.some.injEq, Prod.mk.injEq] at h
      obtain ⟨h1, _, _⟩ := h
      subst h1
      refine ⟨hacc, ?_⟩
      rw [List.getLast?_reverse]
      exact hhead
  | cons c rest ih =>
    intro acc run x n y hacc hhead h
    simp only [frAux] at h
    split_ifs at h with hc h3
    · exact ih acc (run + 1) x n y hacc hhead h
    · simp only [Option.some.injEq, Prod.mk.injEq] at h
      obtain ⟨h1, _, _⟩ := h
      subst h1
      refine ⟨hacc, ?_⟩
      rw [List.getLast?_reverse]
      exact hhead
    · refine ih (c :: (List.replicate run '_' ++ acc)) 0 x n y ?_ ?_ h
      · have hrw : (c :: (List.replicate run '_' ++ acc)).reverse
            = acc.reverse ++ (List.replicate run '_' ++ [c]) := by
          simp [List.reverse_replicate, List.append_assoc]
        rw [hrw]
        cases acc with
        | nil =>
          simp only [List.reverse_nil, List.nil_append]
          rw [noRun3From_rep_absorb run 0 [c]]
          exact noRun3From_single (0 + run) c hc (by omega)
        | cons a0 acc' =>
          have ha0 : a0 ≠ '_' := by
            intro he
            exact hhead (by rw [he]; rfl)
          have hrev : (a0 :: acc').reverse = acc'.reverse ++ [a0] := by simp
          rw [hrev]
          have hshape : (acc'.reverse ++ [a0]) ++ (List.replicate run '_' ++ [c])
              = acc'.reverse ++ a0 :: (List.replicate run '_' ++ [c]) := by simp
          rw [hshape, noRun3From_sep _ _ _ _ ha0]
          have hacc2 : noRun3From 0 acc'.reverse = true := by
            rw [hrev] at hacc
            have hsh2 : acc'.reverse ++ [a0] = acc'.reverse ++ a0 :: [] := rfl
            rw [hsh2, noRun3From_sep _ _ _ _ ha0] at hacc
            simp only [Bool.and_eq_true] at hacc
            exact hacc.1
          rw [hacc2]
          rw [noRun3From_rep_absorb run 0 [c]]
          rw [noRun3From_single (0 + run) c hc (by omega)]
          rfl
      · simp only [List.head?_cons, ne_eq, Option.some.injEq]
        exact fun he => hc he

theorem findRun3_decomp (s x : List Char) (n : Nat) (y : List Char)
    (h : findRun3 s = some (x, n, y)) :
    s = x ++ List.replicate n '_' ++ y ∧ 3 ≤ n ∧ y.head? ≠ some '_'
    ∧ noRun3From 0 x = true ∧ x.getLast? ≠ some '_' := by
  obtain ⟨hd, hn, hy⟩ := frAux_some_decomp s [] 0 x n y h
  obtain ⟨hx1, hx2⟩ := frAux_some_prefixProps s [] 0 x n y (by rfl) (by simp) h
  simp only [List.reverse_nil, List.replicate, List.nil_append] at hd
  exact ⟨hd.symm, hn, hy, hx1, hx2⟩

/-- C8: `replace_underscores` replaces exactly the first maximal run of 3
or more underscores with the value (dash when empty), leaving the prefix
(which holds no such run and no shorter run adjacent to the replaced one)
and the whole suffix (including later runs) unchanged; text with no 3+
run is returned unchanged, so shorter runs are never replaced. -/
theorem underscore_replacement_spec :
    (∀ text value : List Char, ¬ (['_', '_', '_'] <:+: text) →
      replace_underscores text value = text)
    ∧ (∀ text value : List Char, ['_', '_', '_'] <:+: text →
        ∃ x n y, text = x ++ List.replicate n '_' ++ y ∧ 3 ≤ n
          ∧ ¬ (['_', '_', '_'] <:+: x) ∧ x.getLast? ≠ some '_' ∧ y.head? ≠ some '_'
          ∧ replace_underscores text value = x ++ valOrDash value ++ y) := by
  constructor
  · intro text value hno
    have hnone : findRun3 text = none := by
      by_contra hne
      exact hno ((findRun3_ne_none_iff text).1 hne)
    unfold replace_underscores
    rw [hnone]
  · intro text value hyes
    have hne : findRun3 text ≠ none := (findRun3_ne_none_iff text).2 hyes
    cases hfr : findRun3 text with
    | none => exact absurd hfr hne
    | some t =>
      obtain ⟨x, n, y⟩ := t
      obtain ⟨hd, hn, hy, hx1, hx2⟩ := findRun3_decomp text x n y hfr
      refine ⟨x, n, y, hd, hn, ?_, hx2, hy, ?_⟩
      · rintro ⟨u, v, rfl⟩
        have h2 := noRun3From_triple u 0 v
        have hshape : u ++ ['_', '_', '_'] ++ v = u ++ '_' :: '_' :: '_' :: v := by simp
        rw [hshape] at hx1
        rw [h2] at hx1
        exact Bool.false_ne_true hx1
      · unfold replace_underscores
        rw [hfr]

theorem underscore_replacement_spec_witness :
    (['_', '_', '_'] <:+: "a__ ___ __ ____".toList) ∧
      (∃ x n y, "a__ ___ __ ____".toList = x ++ List.replicate n '_' ++ y ∧ 3 ≤ n
        ∧ ¬ (['_', '_', '_'] <:+: x) ∧ x.getLast? ≠ some '_' ∧ y.head? ≠ some '_'
        ∧ replace_underscores "a__ ___ __ ____".toList "v".toList
            = x ++ valOrDash "v".toList ++ y) :=
  ⟨by decide, underscore_replacement_spec.2 "a__ ___ __ ____".toList "v".toList (by decide)⟩

theorem srAux_snoc (c : Char) (hc : c ≠ '_') (a : List Char) :
    ∀ p, srAux p (a ++ [c]) = srAux p a ++ [c] := by
  induction a with
  | nil =>
    intro p
    simp only [List.nil_append, srAux]
    rw [if_neg hc]
    simp
  | cons e a' ih =>
    intro p
    simp only [List.cons_append, srAux]
    split_ifs with he h3
    · exact ih (p + 1)
    · rw [show List.append a' [c] = a' ++ [c] from rfl, ih 0]
      simp
    · rw [show List.append a' [c] = a' ++ [c] from rfl, ih 0]
      simp

theorem srAux_sep (c : Char) (hc : c ≠ '_') (a : List Char) :
    ∀ p b, srAux p (a ++ c :: b) = srAux p a ++ c :: srAux 0 b := by
  induction a with
  | nil =>
    intro p b
    simp only [List.nil_append, srAux]
    rw [if_neg hc]
  | cons e a' ih =>
    intro p b
    simp only [List.cons_append, srAux]
    split_ifs with he h3
    · exact ih (p + 1) b
    · rw [show List.append a' (c :: b) = a' ++ c :: b from rfl, ih 0 b]
      simp
    · rw [show List.append a' (c :: b) = a' ++ c :: b from rfl, ih 0 b]
      simp

theorem srAux_rep_absorb : ∀ (k p : Nat) (t : List Char),
    srAux p (List.replicate k '_' ++ t) = srAux (p + k) t := by
  intro k
  induction k with
  | zero => intro p t; simp
  | succ m ih =>
    intro p t
    rw [List.replicate_succ]
    simp [srAux, ih (p + 1) t]
    rw [show p + 1 + m = p + (m + 1) by omega]

theorem srAux_rep_ge3 (n p : Nat) (h : 3 ≤ p + n) :
    srAux p (List.replicate n '_') = [] := by
  have h2 := srAux_rep_absorb n p []
  rw [List.append_nil] at h2
  rw [h2]
  simp only [srAux]
  rw [if_pos h]

theorem stripRuns3_append_rep (x : List Char) (n : Nat) (hn : 3 ≤ n)
    (hx : x.getLast? ≠ some '_') :
    stripRuns3 (x ++ List.replicate n '_') = stripRuns3 x := by
  rcases List.eq_nil_or_concat x with rfl | ⟨L, d, rfl⟩
  · simp only [List.nil_append, stripRuns3]
    rw [srAux_rep_ge3 n 0 (by omega)]
    rfl
  · have hd : d ≠ '_' := by
      rw [List.concat_eq_append, List.getLast?_concat] at hx
      intro he
      exact hx (by rw [he])
    rw [List.concat_eq_append]
    have hshape : (L ++ [d]) ++ List.replicate n '_' = L ++ d :: List.replicate n '_' := by
      simp
    rw [hshape]
    unfold stripRuns3
    rw [srAux_sep d hd L, srAux_rep_ge3 n 0 (by omega), srAux_snoc d hd L]

theorem srAux_sublist (s : List Char) :
    ∀ p, List.Sublist (srAux p s) (List.replicate p '_' ++ s) := by
  induction s with
  | nil =>
    intro p
    simp only [srAux, List.append_nil]
    split_ifs
    · exact List.nil_sublist _
    · exact List.Sublist.refl _
  | cons c rest ih =>
    intro p
    simp only [srAux]
    split_ifs with hc h3
    · subst hc
      have h1 := ih (p + 1)
      have h2 : List.replicate (p + 1) '_' ++ rest
          = List.replicate p '_' ++ '_' :: rest := by
        rw [List.replicate_succ']
        simp
      rw [h2] at h1
      exact h1
    · exact List.Sublist.append (List.nil_sublist _)
        (List.Sublist.cons₂ c (by simpa using ih 0))
    · exact List.Sublist.append (List.Sublist.refl _)
        (List.Sublist.cons₂ c (by simpa using ih 0))

theorem stripRuns3_sublist (s : List Char) : List.Sublist (stripRuns3 s) s := by
  have := srAux_sublist s 0
  simpa using this

theorem core_sublist (s : List Char) : List.Sublist (core s) s :=
  List.Sublist.trans (List.filter_sublist _) (stripRuns3_sublist s)

theorem mem_core (s : List Char) (c : Char) (h : c ∈ core s) :
    isWs c = false ∧ isDashChar c = false := by
  obtain ⟨_, hp⟩ := List.mem_filter.1 h
  simp only [Bool.and_eq_true, Bool.not_eq_true'] at hp
  exact hp

theorem sublist_drop_left {l a b : List Char} (P : Char → Prop)
    (h : List.Sublist l (a ++ b)) (ha : ∀ x ∈ a, P x) (hl : ∀ x ∈ l, ¬ P x) :
    List.Sublist l b := by
  obtain ⟨l1, l2, rfl, h1, h2⟩ := List.sublist_append_iff.1 h
  cases l1 with
  | nil => simpa using h2
  | cons z l1' =>
    exact absurd (ha z (h1.subset (List.mem_cons_self _ _)))
      (hl z (List.mem_append.2 (Or.inl (List.mem_cons_self _ _))))

theorem sublist_drop_right {l a b : List Char} (P : Char → Prop)
    (h : List.Sublist l (a ++ b)) (hb : ∀ x ∈ b, P x) (hl : ∀ x ∈ l, ¬ P x) :
    List.Sublist l a := by
  obtain ⟨l1, l2, rfl, h1, h2⟩ := List.sublist_append_iff.1 h
  cases l2 with
  | nil => simpa using h1
  | cons z l2' =>
    exact absurd (hb z (h2.subset (List.mem_cons_self _ _)))
      (hl z (List.mem_append.2 (Or.inr (List.mem_cons_self _ _))))

theorem lstrip_decomp (s : List Char) :
    s = s.takeWhile isWs ++ lstripWs s ∧ ∀ c ∈ s.takeWhile isWs, isWs c = true :=
  ⟨(List.takeWhile_append_dropWhile isWs s).symm,
    fun _ hc => List.mem_takeWhile_imp hc⟩

theorem rstrip_decomp (s : List Char) :
    s = rstripWs s ++ (s.reverse.takeWhile isWs).reverse
    ∧ ∀ c ∈ (s.reverse.takeWhile isWs).reverse, isWs c = true := by
  constructor
  · have h := List.takeWhile_append_dropWhile isWs s.reverse
    have h2 := congrArg List.reverse h
    simp only [List.reverse_append, List.reverse_reverse] at h2
    exact h2.symm
  · intro c hc
    rw [List.mem_reverse] at hc
    exact List.mem_takeWhile_imp hc

theorem strip_decomp (s : List Char) :
    ∃ a b, s = a ++ stripWs s ++ b ∧ (∀ c ∈ a, isWs c = true)
      ∧ (∀ c ∈ b, isWs c = true) := by
  obtain ⟨h1, ha⟩ := lstrip_decomp s
  obtain ⟨h2, hb⟩ := rstrip_decomp (lstripWs s)
  refine ⟨s.takeWhile isWs, ((lstripWs s).reverse.takeWhile isWs).reverse, ?_, ha, hb⟩
  unfold stripWs
  rw [List.append_assoc, ← h2]
  exact h1

theorem sublist_stripWs {l s : List Char} (h : List.Sublist l s)
    (hl : ∀ c ∈ l, isWs c = false) : List.Sublist l (stripWs s) := by
  obtain ⟨a, b, hs, ha, hb⟩ := strip_decomp s
  rw [hs, List.append_assoc] at h
  have h2 := sublist_drop_left (fun c => isWs c = true) h ha
    (fun x hx => by simp [hl x hx])
  exact sublist_drop_right (fun c => isWs c = true) h2 hb
    (fun x hx => by simp [hl x hx])

theorem core_nil_of_all (s : List Char)
    (h : ∀ c ∈ s, isWs c = true ∨ isDashChar c = true) : core s = [] := by
  rw [List.eq_nil_iff_forall_not_mem]
  intro c hc
  obtain ⟨hw, hd⟩ := mem_core s c hc
  rcases h c ((core_sublist s).subset hc) with h1 | h1
  · rw [hw] at h1; exact Bool.false_ne_true h1
  · rw [hd] at h1; exact Bool.false_ne_true h1

theorem core_nil_of_blank (s : List Char) (h : stripWs s = []) : core s = [] := by
  apply core_nil_of_all
  obtain ⟨a, b, hs, ha, hb⟩ := strip_decomp s
  rw [h, List.append_nil] at hs
  intro c hc
  rw [hs] at hc
  rcases List.mem_append.1 hc with h1 | h1
  · exact Or.inl (ha c h1)
  · exact Or.inl (hb c h1)

theorem core_nil_of_dash (s : List Char) (d : Char) (hd : isDashChar d = true)
    (h : stripWs s = [d]) : core s = [] := by
  apply core_nil_of_all
  obtain ⟨a, b, hs, ha, hb⟩ := strip_decomp s
  rw [h] at hs
  intro c hc
  rw [hs] at hc
  rcases List.mem_append.1 hc with h1 | h1
  · rcases List.mem_append.1 h1 with h2 | h2
    · exact Or.inl (ha c h2)
    · rw [List.mem_singleton.1 h2]
      exact Or.inr hd
  · exact Or.inl (hb c h1)

theorem getD_oor {α : Type} (l : List α) (n : Nat) (dflt : α) (h : l.length ≤ n) :
    l.getD n dflt = dflt := by
  rw [List.getD_eq_getElem?_getD, List.getElem?_eq_none h]
  rfl

theorem core_append_run (x : List Char) (n : Nat) (y : List Char) (hn : 3 ≤ n)
    (hx : x.getLast? ≠ some '_') (hy : y.head? ≠ some '_') :
    core (x ++ List.replicate n '_' ++ y) = core x ++ core y := by
  cases y with
  | nil =>
    rw [List.append_nil]
    unfold core
    rw [show stripRuns3 (x ++ List.replicate n '_') = stripRuns3 x from
      stripRuns3_append_rep x n hn hx]
    simp [stripRuns3, srAux]
  | cons e y' =>
    have he : e ≠ '_' := by
      intro h
      exact hy (by rw [h]; rfl)
    have hshape : x ++ List.replicate n '_' ++ e :: y'
        = (x ++ List.replicate n '_') ++ e :: y' := by
      simp [List.append_assoc]
    unfold core
    rw [hshape]
    have h1 : stripRuns3 ((x ++ List.replicate n '_') ++ e :: y')
        = stripRuns3 x ++ e :: srAux 0 y' := by
      unfold stripRuns3
      rw [srAux_sep e he _ 0 y']
      rw [show srAux 0 (x ++ List.replicate n '_') = srAux 0 x from
        stripRuns3_append_rep x n hn hx]
    have h2 : stripRuns3 (e :: y') = e :: srAux 0 y' := by
      unfold stripRuns3
      simp [srAux, he]
    rw [h1, h2]
    simp [List.filter_append]

theorem core_replace_underscores (text value : List Char) :
    List.Sublist (core text) (replace_underscores text value) := by
  cases hfr : findRun3 text with
  | none =>
    unfold replace_underscores
    rw [hfr]
    exact core_sublist text
  | some tr =>
    obtain ⟨x, n, y⟩ := tr
    obtain ⟨hd, hn, hy, _, hx2⟩ := findRun3_decomp text x n y hfr
    unfold replace_underscores
    rw [hfr, hd, core_append_run x n y hn hx2 hy]
    exact List.Sublist.append
      ((core_sublist x).trans (List.sublist_append_left _ _))
      (core_sublist y)

theorem core_sub_rstrip (s : List Char) : List.Sublist (core s) (rstripWs s) := by
  obtain ⟨hdec, hws⟩ := rstrip_decomp s
  have h : List.Sublist (core s) (rstripWs s ++ (s.reverse.takeWhile isWs).reverse) := by
    rw [← hdec]
    exact core_sublist s
  exact sublist_drop_right (fun c => isWs c = true) h hws
    (fun x hx => by simp [(mem_core s x hx).1])

theorem core_append_sub (orig w : List Char) :
    List.Sublist (core orig) (rstripWs orig ++ ' ' :: w) :=
  (core_sub_rstrip orig).trans (List.sublist_append_left _ _)

theorem all_ws_of_strip_nil (s : List Char) (h : stripWs s = []) :
    ∀ c ∈ s, isWs c = true := by
  obtain ⟨a, b, hs, ha, hb⟩ := strip_decomp s
  rw [h, List.append_nil] at hs
  intro c hc
  rw [hs] at hc
  rcases List.mem_append.1 hc with h1 | h1
  · exact ha c h1
  · exact hb c h1

theorem all_ws_dash_of_strip_dash (s : List Char) (d : Char)
    (hd : isDashChar d = true) (h : stripWs s = [d]) :
    ∀ c ∈ s, isWs c = true ∨ isDashChar c = true := by
  obtain ⟨a, b, hs, ha, hb⟩ := strip_decomp s
  rw [h] at hs
  intro c hc
  rw [hs] at hc
  rcases List.mem_append.1 hc with h1 | h1
  · rcases List.mem_append.1 h1 with h2 | h2
    · exact Or.inl (ha c h2)
    · rw [List.mem_singleton.1 h2]
      exact Or.inr hd
  · exact Or.inl (hb c h1)

theorem core_nil_of_ws_dash (s : List Char)
    (h : ∀ c ∈ s, isWs c = true ∨ isDashChar c = true) : core s = [] :=
  core_nil_of_all s h

theorem core_colon_sub (orig left right w : List Char)
    (hsplit : orig = left ++ ':' :: right)
    (hright : ∀ c ∈ right, isWs c = true ∨ isDashChar c = true) :
    List.Sublist (core orig) (stripWs left ++ ':' :: ' ' :: w) := by
  have h : List.Sublist (core orig) (left ++ ':' :: right) := by
    rw [← hsplit]
    exact core_sublist orig
  obtain ⟨l1, l2, hco, h1, h2⟩ := List.sublist_append_iff.1 h
  have hmemco : ∀ c ∈ core orig, isWs c = false ∧ isDashChar c = false :=
    mem_core orig
  have hl1mem : ∀ c ∈ l1, isWs c = false := fun c hc =>
    (hmemco c (by rw [hco]; exact List.mem_append.2 (Or.inl hc))).1
  have hl1 : List.Sublist l1 (stripWs left) := sublist_stripWs h1 hl1mem
  rcases List.sublist_cons_iff.1 h2 with h2r | ⟨r, hl2, hr⟩
  · have hnil : l2 = [] := by
      rw [List.eq_nil_iff_forall_not_mem]
      intro z hz
      have hmz := hmemco z (by rw [hco]; exact List.mem_append.2 (Or.inr hz))
      rcases hright z (h2r.subset hz) with hw | hdd
      · rw [hmz.1] at hw
        exact Bool.false_ne_true hw
      · rw [hmz.2] at hdd
        exact Bool.false_ne_true hdd
    rw [hco, hnil, List.append_nil]
    exact hl1.trans (List.sublist_append_left _ _)
  · have hrnil : r = [] := by
      rw [List.eq_nil_iff_forall_not_mem]
      intro z hz
      have hmz := hmemco z (by
        rw [hco, hl2]
        exact List.mem_append.2 (Or.inr (List.mem_cons_of_mem _ hz)))
      rcases hright z (hr.subset hz) with hw | hdd
      · rw [hmz.1] at hw
        exact Bool.false_ne_true hw
      · rw [hmz.2] at hdd
        exact Bool.false_ne_true hdd
    subst hrnil
    rw [hco, hl2]
    exact List.Sublist.append hl1 (List.Sublist.cons₂ ':' (List.nil_sublist _))

theorem valOrDash_no_run {value : List Char}
    (hv : ¬ (3 ≤ value.length ∧ ∀ c ∈ value, c = '_'))
    (n : Nat) (hn : 3 ≤ n) : valOrDash value ≠ List.replicate n '_' := by
  unfold valOrDash
  split_ifs with he
  · intro h
    have hlen := congrArg List.length h
    simp at hlen
    omega
  · intro h
    apply hv
    constructor
    · have hlen := congrArg List.length h
      rw [List.length_replicate] at hlen
      omega
    · intro c hc
      rw [h] at hc
      exact List.eq_of_mem_replicate hc

theorem replace_unchanged_none {text value : List Char}
    (hv : ¬ (3 ≤ value.length ∧ ∀ c ∈ value, c = '_'))
    (h : replace_underscores text value = text) : findRun3 text = none := by
  cases hfr : findRun3 text with
  | none => rfl
  | some tr =>
    obtain ⟨x, n, y⟩ := tr
    obtain ⟨hd, hn, _, _, _⟩ := findRun3_decomp text x n y hfr
    have hrw : replace_underscores text value = x ++ valOrDash value ++ y := by
      unfold replace_underscores
      rw [hfr]
    rw [hrw, hd] at h
    have h2 : x ++ valOrDash value = x ++ List.replicate n '_' :=
      List.append_cancel_right h
    have h3 : valOrDash value = List.replicate n '_' :=
      List.append_cancel_left h2
    exact absurd h3 (valOrDash_no_run hv n hn)

theorem colon_split (orig : List Char) (h : ':' ∈ orig) :
    orig = orig.takeWhile (fun c => c != ':')
      ++ ':' :: (orig.dropWhile (fun c => c != ':')).tail := by
  induction orig with
  | nil => cases h
  | cons c rest ih =>
    by_cases hc : c = ':'
    · subst hc
      rw [List.takeWhile_cons, List.dropWhile_cons]
      simp
    · have hmem : ':' ∈ rest := by
        rcases List.mem_cons.1 h with h1 | h1
        · exact absurd h1.symm hc
        · exact h1
      rw [List.takeWhile_cons, List.dropWhile_cons]
      have hpc : (c != ':') = true := by simp [hc]
      rw [if_pos hpc, if_pos hpc]
      simp only [List.cons_append]
      rw [← ih hmem]

theorem hasRun_iff_triple (s : List Char) :
    hasRun s = true ↔ (['_', '_', '_'] <:+: s) := by
  unfold hasRun
  rw [Option.isSome_iff_ne_none]
  exact findRun3_ne_none_iff s

theorem getD_set_sub (paras : List (List Char)) (j : Nat) (v : List Char) (i : Nat)
    (hsub : List.Sublist (core (paras.getD j [])) v) :
    List.Sublist (core (paras.getD i [])) ((paras.set j v).getD i []) := by
  rw [getD_set_split]
  split_ifs with h
  · obtain ⟨hji, _⟩ := h
    subst hji
    exact hsub
  · exact core_sublist _

theorem cellText_setCell_target (d : Doc) (t r k : Nat) (txt : List Char) :
    cellText (setCell d t r k txt) t r k = txt
    ∨ cellText (setCell d t r k txt) t r k = cellText d t r k := by
  by_cases h1 : t < d.tables.length
  · by_cases h2 : r < (tableOf d t).length
    · by_cases h3 : k < (rowOf d t r).length
      · exact Or.inl (cellText_setCell_self d t r k txt h1 h2 h3)
      · right
        show (((d.tables.set t ((tableOf d t).set r ((rowOf d t r).set k txt))).getD t
            []).getD r []).getD k [] = cellText d t r k
        rw [getD_set_split, if_pos ⟨rfl, h1⟩, getD_set_split, if_pos ⟨rfl, h2⟩,
          getD_set_split, if_neg (fun hk => h3 hk.2)]
        rfl
    · right
      show (((d.tables.set t ((tableOf d t).set r ((rowOf d t r).set k txt))).getD t
          []).getD r []).getD k [] = cellText d t r k
      rw [getD_set_split, if_pos ⟨rfl, h1⟩, getD_set_split,
        if_neg (fun hk => h2 hk.2)]
      rfl
  · right
    show (((d.tables.set t ((tableOf d t).set r ((rowOf d t r).set k txt))).getD t
        []).getD r []).getD k [] = cellText d t r k
    rw [getD_set_split, if_neg (fun hk => h1 hk.2)]
    rfl

theorem row_valid_of_cell (d : Doc) (t r : Nat) (h : 0 < (rowOf d t r).length) :
    t < d.tables.length ∧ r < (tableOf d t).length := by
  constructor
  · by_contra hlt
    have h1 : rowOf d t r = [] := by
      unfold rowOf tableOf
      rw [getD_oor d.tables t [] (by omega)]
      exact getD_oor [] r [] (by simp)
    rw [h1] at h
    simp at h
  · by_contra hlt
    have h1 : rowOf d t r = [] := by
      unfold rowOf
      exact getD_oor _ r [] (by omega)
    rw [h1] at h
    simp at h

theorem fill_cell_paras (d : Doc) (t r c : Nat) (value : List Char) (i : Nat) :
    paraText ((fill_table_cell_right d t r c value).1) i = paraText d i := by
  simp only [fill_table_cell_right]
  split_ifs <;> rfl

theorem fill_paragraph_core {value : List Char}
    (hv : ¬ (3 ≤ value.length ∧ ∀ c ∈ value, c = '_')) (paras : List (List Char))
    (idx i : Nat) :
    List.Sublist (core (paras.getD i []))
      (((fill_paragraph paras idx value).1).getD i []) := by
  simp only [fill_paragraph]
  split_ifs with h0 h1 h2 h3 h4
  · exact core_sublist _
  · exact getD_set_sub paras idx _ i (core_replace_underscores _ value)
  · obtain ⟨hcolon, hdisj⟩ := h2
    refine getD_set_sub paras idx _ i ?_
    have hrepeq : replace_underscores (paras.getD idx []) value = paras.getD idx [] :=
      not_ne_iff.mp h1
    have hfr0 : findRun3 (paras.getD idx []) = none := replace_unchanged_none hv hrepeq
    have hsplit := colon_split (paras.getD idx []) hcolon
    have hnorun : ¬ (hasRun ((paras.getD idx []).dropWhile (fun c => c != ':')).tail
        = true) := by
      intro hhr
      have hi := (hasRun_iff_triple _).1 hhr
      have hinf : (((paras.getD idx []).dropWhile (fun c => c != ':')).tail)
          <:+: (paras.getD idx []) := by
        refine ⟨(paras.getD idx []).takeWhile (fun c => c != ':') ++ [':'], [], ?_⟩
        rw [List.append_nil, List.append_assoc, List.singleton_append]
        exact hsplit.symm
      exact ((findRun3_ne_none_iff _).2 (hi.trans hinf)) hfr0
    rcases hdisj with hb | hr | hd1 | hd2 | hd3
    · exact core_colon_sub _ _ _ _ hsplit
        (fun c hc => Or.inl (all_ws_of_strip_nil _ hb c hc))
    · exact absurd hr hnorun
    · exact core_colon_sub _ _ _ _ hsplit
        (all_ws_dash_of_strip_dash _ '—' (by decide) hd1)
    · exact core_colon_sub _ _ _ _ hsplit
        (all_ws_dash_of_strip_dash _ '-' (by decide) hd2)
    · exact core_colon_sub _ _ _ _ hsplit
        (all_ws_dash_of_strip_dash _ '–' (by decide) hd3)
  · refine getD_set_sub paras (idx + 1) _ i ?_
    have hsub := core_replace_underscores (paras.getD (idx + 1) []) (valOrDash value)
    have hall := all_ws_of_strip_nil _ h4
    have hnil : core (paras.getD (idx + 1) []) = [] := by
      rw [List.eq_nil_iff_forall_not_mem]
      intro z hz
      have hzw := (mem_core _ z hz).1
      have hzin := hall z (hsub.subset hz)
      rw [hzw] at hzin
      exact Bool.false_ne_true hzin
    rw [hnil]
    exact List.nil_sublist _
  · exact getD_set_sub paras (idx + 1) _ i (core_replace_underscores _ _)
  · exact getD_set_sub paras idx _ i (core_append_sub _ _)

theorem fill_cell_core (value : List Char) (d : Doc) (t r c tc rc cc : Nat) :
    List.Sublist (core (cellText d tc rc cc))
      (cellText ((fill_table_cell_right d t r c value).1) tc rc cc) := by
  simp only [fill_table_cell_right]
  by_cases hc : c + 1 < (rowOf d t r).length
  · rw [if_pos hc]
    dsimp only
    by_cases heq : (tc, rc, cc) = (t, r, c + 1)
    · simp only [Prod.mk.injEq] at heq
      obtain ⟨h1, h2, h3⟩ := heq
      rw [h1, h2, h3]
      obtain ⟨ht, hr⟩ := row_valid_of_cell d t r (by omega)
      rw [cellText_setCell_self d t r (c + 1) _ ht hr hc]
      split_ifs with hrun hbl
      · exact core_replace_underscores _ _
      · have hnil : core (cellText d t r (c + 1)) = [] := by
          rcases hbl with hb | hd1 | hd2 | hd3
          · exact core_nil_of_blank _ hb
          · exact core_nil_of_dash _ '—' (by decide) hd1
          · exact core_nil_of_dash _ '-' (by decide) hd2
          · exact core_nil_of_dash _ '–' (by decide) hd3
        rw [hnil]
        exact List.nil_sublist _
      · exact core_append_sub _ _
    · rw [cellText_setCell_ne d t r (c + 1) _ tc rc cc heq]
      exact core_sublist _
  · rw [if_neg hc]
    dsimp only
    by_cases heq : (tc, rc, cc) = (t, r, c)
    · simp only [Prod.mk.injEq] at heq
      obtain ⟨h1, h2, h3⟩ := heq
      rw [h1, h2, h3]
      rcases cellText_setCell_target d t r c _ with h | h
      · rw [h]
        split_ifs with ht1
        · exact core_append_sub _ _
        · exact core_replace_underscores _ _
      · rw [h]
        exact core_sublist _
    · rw [cellText_setCell_ne d t r c _ tc rc cc heq]
      exact core_sublist _

/-- C5 counterexample: with paragraph "L: keep ___" and the value "___"
(equal to the underscore run), the underscore strategy produces an
unchanged text and so does not fire, the colon rewrite then fires via the
underscore-run-in-remainder condition, and the meaningful word "keep" is
destroyed — meaningful content is reduced away. -/
theorem content_preservation_counterexample :
    fill_paragraph ["L: keep ___".toList] 0 "___".toList
        = (["L: ___".toList], true)
    ∧ ("keep".toList <:+: "L: keep ___".toList)
    ∧ ¬ ("keep".toList <:+: "L: ___".toList) :=
  ⟨by decide, by decide, by decide⟩

/-- C5 (amended): provided the value is not itself a run of 3 or more
underscores — that is, not a string of length at least 3 consisting only
of underscores (the counterexample shows the colon rewrite can otherwise
discard the remainder) — no fill path reduces meaningful content: every
character of a region that is not whitespace, a placeholder dash, or part
of an underscore run of length 3+ survives, in order, in that region
after the mutation; cell fills touch no paragraph, and the cell fallback
only replaces an underscore run inside the matched cell or appends to its
text, so the matched label is never destroyed. -/
theorem content_preservation_amended :
    ∀ value : List Char, ¬ (3 ≤ value.length ∧ ∀ c ∈ value, c = '_') →
      (∀ paras idx i, List.Sublist (core (paras.getD i []))
          (((fill_paragraph paras idx value).1).getD i []))
      ∧ (∀ d t r c tc rc cc, List.Sublist (core (cellText d tc rc cc))
          (cellText ((fill_table_cell_right d t r c value).1) tc rc cc))
      ∧ (∀ d t r c i, paraText ((fill_table_cell_right d t r c value).1) i
          = paraText d i)
      ∧ (∀ d t r c, validRef d (.cell t r c) → ¬ (c + 1 < (rowOf d t r).length) →
          (replace_underscores (cellText d t r c) (valOrDash value) ≠ cellText d t r c
            ∧ cellText ((fill_table_cell_right d t r c value).1) t r c
              = replace_underscores (cellText d t r c) (valOrDash value))
          ∨ cellText ((fill_table_cell_right d t r c value).1) t r c
              = rstripWs (cellText d t r c) ++ ' ' :: valOrDash value) := by
  intro value hv
  refine ⟨fun paras idx i => fill_paragraph_core hv paras idx i,
    fun d t r c tc rc cc => fill_cell_core value d t r c tc rc cc,
    fun d t r c i => fill_cell_paras d t r c value i,
    fun d t r c hvalid hnc => ?_⟩
  obtain ⟨ht, hr, hcc⟩ := hvalid
  simp only [fill_table_cell_right]
  rw [if_neg hnc]
  dsimp only
  split_ifs with ht1
  · right
    exact cellText_setCell_self d t r c _ ht hr hcc
  · left
    exact ⟨ht1, cellText_setCell_self d t r c _ ht hr hcc⟩

theorem content_preservation_amended_witness :
    (¬ (3 ≤ "a___b".toList.length ∧ ∀ c ∈ "a___b".toList, c = '_')) ∧
      (List.Sublist (core (["Full Name: ___".toList].getD 0 []))
        (((fill_paragraph ["Full Name: ___".toList] 0 "a___b".toList).1).getD 0 [])) :=
  ⟨by decide,
    (content_preservation_amended "a___b".toList (by decide)).1
      ["Full Name: ___".toList] 0 0⟩

theorem foldl_stepBest_some (aN : List Char) (rs : List (RegionRef × List Char)) :
    ∀ b : Match,
      ∃ m : Match, rs.foldl (stepBest aN) (some b) = some m
        ∧ ∃ pre post,
          (b.ref, b.score) :: ((rs.filter (fun rt => !(isBlank rt.2))).map
              (fun rt => (rt.1, scoreOf aN rt.2)))
            = pre ++ (m.ref, m.score) :: post
          ∧ (∀ e ∈ pre, e.2 < m.score) ∧ (∀ e ∈ post, e.2 ≤ m.score) := by
  induction rs with
  | nil =>
    intro b
    exact ⟨b, rfl, [], [], by simp, by simp, by simp⟩
  | cons rt rs' ih =>
    intro b
    rw [List.foldl_cons]
    by_cases hbl : isBlank rt.2 = true
    · have hstep : stepBest aN (some b) rt = some b := by
        unfold stepBest
        rw [if_pos hbl]
      rw [hstep]
      have hfil : (rt :: rs').filter (fun rt => !(isBlank rt.2))
          = rs'.filter (fun rt => !(isBlank rt.2)) := by
        rw [List.filter_cons_of_neg (by simp [hbl])]
      rw [hfil]
      exact ih b
    · have hfil : (rt :: rs').filter (fun rt => !(isBlank rt.2))
          = rt :: rs'.filter (fun rt => !(isBlank rt.2)) := by
        rw [List.filter_cons_of_pos (by simp [hbl])]
      rw [hfil, List.map_cons]
      by_cases hlt : b.score < scoreOf aN rt.2
      · have hstep : stepBest aN (some b) rt = some ⟨rt.1, scoreOf aN rt.2⟩ := by
          unfold stepBest
          rw [if_neg hbl]
          dsimp only
          rw [if_pos hlt]
        rw [hstep]
        obtain ⟨m, hm, pre', post', heq, hpre, hpost⟩ := ih ⟨rt.1, scoreOf aN rt.2⟩
        refine ⟨m, hm, (b.ref, b.score) :: pre', post', ?_, ?_, hpost⟩
        · rw [List.cons_append, ← heq]
        · intro e he
          rcases List.mem_cons.1 he with rfl | he2
          · have hscle : scoreOf aN rt.2 ≤ m.score := by
              cases pre' with
              | nil =>
                simp only [List.nil_append] at heq
                injection heq with h1 h2
                exact le_of_eq (congrArg Prod.snd h1)
              | cons q pre2 =>
                simp only [List.cons_append] at heq
                injection heq with h1 h2
                have hq := hpre q (List.mem_cons_self _ _)
                rw [← h1] at hq
                exact le_of_lt hq
            exact lt_of_lt_of_le hlt hscle
          · exact hpre e he2
      · have hstep : stepBest aN (some b) rt = some b := by
          unfold stepBest
          rw [if_neg hbl]
          dsimp only
          rw [if_neg hlt]
        rw [hstep]
        obtain ⟨m, hm, pre', post', heq, hpre, hpost⟩ := ih b
        cases pre' with
        | nil =>
          simp only [List.nil_append] at heq
          injection heq with h1 h2
          refine ⟨m, hm, [], (rt.1, scoreOf aN rt.2) :: post', ?_, by simp, ?_⟩
          · rw [List.nil_append, h1, h2]
          · intro e he
            rcases List.mem_cons.1 he with rfl | he2
            · have hbm : b.score = m.score := congrArg Prod.snd h1
              rw [← hbm]
              exact le_of_not_lt hlt
            · exact hpost e he2
        | cons q pre2 =>
          simp only [List.cons_append] at heq
          injection heq with h1 h2
          refine ⟨m, hm, (b.ref, b.score) :: (rt.1, scoreOf aN rt.2) :: pre2, post',
            ?_, ?_, hpost⟩
          · simp only [List.cons_append, List.cons.injEq]
            refine ⟨?_, ?_, h2⟩ <;> trivial
          · intro e he
            have hbm : b.score < m.score := by
              have hq := hpre q (List.mem_cons_self _ _)
              rw [← h1] at hq
              exact hq
            rcases List.mem_cons.1 he with rfl | he2
            · exact hbm
            rcases List.mem_cons.1 he2 with rfl | he3
            · exact lt_of_le_of_lt (le_of_not_lt hlt) hbm
            · exact hpre e (List.mem_cons_of_mem _ he3)

theorem foldl_stepBest_none_iff (aN : List Char) (rs : List (RegionRef × List Char)) :
    rs.foldl (stepBest aN) none = none ↔
      (rs.filter (fun rt => !(isBlank rt.2))).map
        (fun rt => (rt.1, scoreOf aN rt.2)) = [] := by
  induction rs with
  | nil => simp
  | cons rt rs' ih =>
    rw [List.foldl_cons]
    by_cases hbl : isBlank rt.2 = true
    · have hstep : stepBest aN none rt = none := by
        unfold stepBest
        rw [if_pos hbl]
      rw [hstep, List.filter_cons_of_neg (by simp [hbl])]
      exact ih
    · have hstep : stepBest aN none rt = some ⟨rt.1, scoreOf aN rt.2⟩ := by
        unfold stepBest
        rw [if_neg hbl]
      rw [hstep, List.filter_cons_of_pos (by simp [hbl]), List.map_cons]
      obtain ⟨m, hm, _⟩ := foldl_stepBest_some aN rs' ⟨rt.1, scoreOf aN rt.2⟩
      rw [hm]
      simp

theorem foldl_stepBest_none_start (aN : List Char) (rs : List (RegionRef × List Char))
    (m : Match) (h : rs.foldl (stepBest aN) none = some m) :
    ∃ pre post,
      (rs.filter (fun rt => !(isBlank rt.2))).map (fun rt => (rt.1, scoreOf aN rt.2))
        = pre ++ (m.ref, m.score) :: post
      ∧ (∀ e ∈ pre, e.2 < m.score) ∧ (∀ e ∈ post, e.2 ≤ m.score) := by
  induction rs with
  | nil => simp at h
  | cons rt rs' ih =>
    rw [List.foldl_cons] at h
    by_cases hbl : isBlank rt.2 = true
    · have hstep : stepBest aN none rt = none := by
        unfold stepBest
        rw [if_pos hbl]
      rw [hstep] at h
      rw [List.filter_cons_of_neg (by simp [hbl])]
      exact ih h
    · have hstep : stepBest aN none rt = some ⟨rt.1, scoreOf aN rt.2⟩ := by
        unfold stepBest
        rw [if_neg hbl]
      rw [hstep] at h
      rw [List.filter_cons_of_pos (by simp [hbl]), List.map_cons]
      obtain ⟨m2, hm2, pre, post, heq, hpre, hpost⟩ :=
        foldl_stepBest_some aN rs' ⟨rt.1, scoreOf aN rt.2⟩
      rw [hm2] at h
      injection h with h
      subst h
      exact ⟨pre, post, heq, hpre, hpost⟩

theorem find_best_anchor_characterization (d : Doc) (anchor : List Char) :
    (find_best_anchor d anchor = none ↔
      ∀ e ∈ scoredRegions d anchor, e.2 < mkRat 62 100)
    ∧ ∀ m : Match, find_best_anchor d anchor = some m →
        mkRat 62 100 ≤ m.score
        ∧ ∃ pre post, scoredRegions d anchor = pre ++ (m.ref, m.score) :: post
          ∧ (∀ e ∈ pre, e.2 < m.score) ∧ (∀ e ∈ post, e.2 ≤ m.score) := by
  unfold find_best_anchor scoredRegions
  cases hf : (regions d).foldl (stepBest (norm anchor)) none with
  | none =>
    have hnil := (foldl_stepBest_none_iff (norm anchor) (regions d)).1 hf
    constructor
    · rw [hnil]
      simp
    · intro m hm
      cases hm
  | some b =>
    obtain ⟨pre, post, heq, hpre, hpost⟩ :=
      foldl_stepBest_none_start (norm anchor) (regions d) b hf
    have hbmem : (b.ref, b.score) ∈
        ((regions d).filter (fun rt => !(isBlank rt.2))).map
          (fun rt => (rt.1, scoreOf (norm anchor) rt.2)) := by
      rw [heq]
      exact List.mem_append.2 (Or.inr (List.mem_cons_self _ _))
    dsimp only
    constructor
    · split_ifs with hth
      · constructor
        · intro _ e he
          rw [heq] at he
          rcases List.mem_append.1 he with h1 | h1
          · exact lt_trans (hpre e h1) hth
          rcases List.mem_cons.1 h1 with rfl | h2
          · exact hth
          · exact lt_of_le_of_lt (hpost e h2) hth
        · intro _
          rfl
      · constructor
        · intro hcon
          cases hcon
        · intro hall
          exact absurd (hall (b.ref, b.score) hbmem) (by simpa using hth)
    · intro m hm
      split_ifs at hm with hth
      injection hm with hm
      exact hm ▸ ⟨le_of_not_lt hth, pre, post, heq, hpre, hpost⟩

/-- C1: the resolver scans paragraphs then cells in order, skipping blank
regions; it returns `none` exactly when every scanned region's boosted
score is below 0.62 (vacuously so when nothing is scanned), and otherwise
the returned match is a scanned region carrying its own effective score,
strictly greater than every earlier region's score (first seen wins ties)
and at least every later region's score. -/
theorem resolver_first_best_scan (d : Doc) (anchor : List Char) :
    (find_best_anchor d anchor = none ↔
      ∀ e ∈ scoredRegions d anchor, e.2 < mkRat 62 100)
    ∧ ∀ m : Match, find_best_anchor d anchor = some m →
        mkRat 62 100 ≤ m.score
        ∧ ∃ pre post, scoredRegions d anchor = pre ++ (m.ref, m.score) :: post
          ∧ (∀ e ∈ pre, e.2 < m.score) ∧ (∀ e ∈ post, e.2 ≤ m.score) :=
  find_best_anchor_characterization d anchor

set_option maxRecDepth 100000 in
theorem resolver_first_best_scan_witness :
    find_best_anchor ⟨["full name".toList], []⟩ "full name".toList
        = some ⟨RegionRef.para 0, 1⟩
    ∧ (mkRat 62 100 ≤ (⟨RegionRef.para 0, 1⟩ : Match).score
      ∧ ∃ pre post,
          scoredRegions ⟨["full name".toList], []⟩ "full name".toList
            = pre ++ ((⟨RegionRef.para 0, 1⟩ : Match).ref,
                (⟨RegionRef.para 0, 1⟩ : Match).score) :: post
          ∧ (∀ e ∈ pre, e.2 < (⟨RegionRef.para 0, 1⟩ : Match).score)
          ∧ (∀ e ∈ post, e.2 ≤ (⟨RegionRef.para 0, 1⟩ : Match).score)) :=
  ⟨by decide,
    (resolver_first_best_scan ⟨["full name".toList], []⟩ "full name".toList).2
      ⟨RegionRef.para 0, 1⟩ (by decide)⟩

theorem regions_text (d : Doc) : ∀ e ∈ regions d, e.2 = textOf d e.1 := by
  intro e he
  unfold regions at he
  rcases List.mem_append.1 he with h1 | h1
  · obtain ⟨i, _, rfl⟩ := List.mem_map.1 h1
    rfl
  · obtain ⟨t, _, h2⟩ := List.mem_flatMap.1 h1
    obtain ⟨r, _, h3⟩ := List.mem_flatMap.1 h2
    obtain ⟨c, _, rfl⟩ := List.mem_map.1 h3
    rfl

theorem mem_regions_of_valid (d : Doc) (ref : RegionRef) (h : validRef d ref) :
    (ref, textOf d ref) ∈ regions d := by
  unfold regions
  cases ref with
  | para i =>
    refine List.mem_append.2 (Or.inl ?_)
    exact List.mem_map.2 ⟨i, List.mem_range.2 h, rfl⟩
  | cell t r c =>
    obtain ⟨ht, hr, hc⟩ := h
    refine List.mem_append.2 (Or.inr ?_)
    refine List.mem_flatMap.2 ⟨t, List.mem_range.2 ht, ?_⟩
    refine List.mem_flatMap.2 ⟨r, List.mem_range.2 hr, ?_⟩
    exact List.mem_map.2 ⟨c, List.mem_range.2 hc, rfl⟩

theorem scored_mem_score (d : Doc) (anchor : List Char) (e : RegionRef × ℚ)
    (h : e ∈ scoredRegions d anchor) :
    e.2 = scoreOf (norm anchor) (textOf d e.1) := by
  unfold scoredRegions at h
  obtain ⟨rt, hrt, rfl⟩ := List.mem_map.1 h
  have hte := regions_text d rt (List.mem_of_mem_filter hrt)
  dsimp only
  rw [hte]

theorem scored_mem_of_valid (d : Doc) (anchor : List Char) (ref : RegionRef)
    (hval : validRef d ref) (hnb : isBlank (textOf d ref) = false) :
    (ref, scoreOf (norm anchor) (textOf d ref)) ∈ scoredRegions d anchor := by
  unfold scoredRegions
  refine List.mem_map.2 ⟨(ref, textOf d ref), ?_, rfl⟩
  exact List.mem_filter.2 ⟨mem_regions_of_valid d ref hval, by simp [hnb]⟩

/-- C2: when the normalized anchor is a non-empty substring of the
normalized text of an existing non-blank region, that region's effective
score is at least 0.95, resolution succeeds with a score of at least
0.95, and no non-containing region whose raw similarity is below the
containing region's boosted score is ever the selected match. -/
theorem substring_boost_selects (d : Doc) (anchor : List Char) (refc : RegionRef)
    (hne : norm anchor ≠ [])
    (hval : validRef d refc)
    (hnb : isBlank (textOf d refc) = false)
    (hinf : norm anchor <:+: norm (textOf d refc)) :
    mkRat 95 100 ≤ scoreOf (norm anchor) (textOf d refc)
    ∧ (∃ m : Match, find_best_anchor d anchor = some m ∧ mkRat 95 100 ≤ m.score)
    ∧ ∀ (rj : RegionRef) (s : ℚ),
        ¬ (norm anchor <:+: norm (textOf d rj)) →
        sim (norm anchor) (textOf d rj) < scoreOf (norm anchor) (textOf d refc) →
        find_best_anchor d anchor ≠ some ⟨rj, s⟩ := by
  have hboost : mkRat 95 100 ≤ scoreOf (norm anchor) (textOf d refc) := by
    unfold scoreOf
    rw [if_pos ⟨hne, hinf⟩]
    exact le_max_right _ _
  have hmem := scored_mem_of_valid d anchor refc hval hnb
  obtain ⟨hiff, hsome⟩ := find_best_anchor_characterization d anchor
  have hne2 : find_best_anchor d anchor ≠ none := by
    intro h0
    have hlt62 := hiff.1 h0 _ hmem
    dsimp only at hlt62
    have h62 : (mkRat 62 100 : ℚ) < mkRat 95 100 := by decide
    exact absurd hlt62 (not_lt.2 (le_trans (le_of_lt h62) hboost))
  cases hfba : find_best_anchor d anchor with
  | none => exact absurd hfba hne2
  | some m =>
    obtain ⟨hth, pre, post, heq, hpre, hpost⟩ := hsome m hfba
    have hall : ∀ e ∈ scoredRegions d anchor, e.2 ≤ m.score := by
      intro e he
      rw [heq] at he
      rcases List.mem_append.1 he with h1 | h1
      · exact le_of_lt (hpre e h1)
      rcases List.mem_cons.1 h1 with rfl | h2
      · exact le_refl _
      · exact hpost e h2
    have hcle : scoreOf (norm anchor) (textOf d refc) ≤ m.score := by
      have := hall _ hmem
      dsimp only at this
      exact this
    refine ⟨hboost, ⟨m, rfl, le_trans hboost hcle⟩, ?_⟩
    intro rj s hninf hlt heq2
    have hm2 : m = ⟨rj, s⟩ := by
      injection heq2
    have hmemm : (m.ref, m.score) ∈ scoredRegions d anchor := by
      rw [heq]
      exact List.mem_append.2 (Or.inr (List.mem_cons_self _ _))
    have hdet := scored_mem_score d anchor _ hmemm
    dsimp only at hdet
    rw [hm2] at hdet hcle
    have hseq : s = sim (norm anchor) (textOf d rj) := by
      rw [show (⟨rj, s⟩ : Match).score = s from rfl] at hdet
      rw [show (⟨rj, s⟩ : Match).ref = rj from rfl] at hdet
      rw [hdet]
      unfold scoreOf
      rw [if_neg (fun hco => hninf hco.2)]
    have hfin : sim (norm anchor) (textOf d rj) < s :=
      lt_of_lt_of_le hlt hcle
    rw [← hseq] at hfin
    exact absurd hfin (lt_irrefl s)

set_option maxRecDepth 100000 in
theorem substring_boost_selects_witness :
    (norm "Full Name".toList ≠ []
      ∧ isBlank (textOf ⟨["Full Name: ___".toList], []⟩ (RegionRef.para 0)) = false
      ∧ (norm "Full Name".toList
          <:+: norm (textOf ⟨["Full Name: ___".toList], []⟩ (RegionRef.para 0)))) ∧
    (mkRat 95 100 ≤ scoreOf (norm "Full Name".toList)
        (textOf ⟨["Full Name: ___".toList], []⟩ (RegionRef.para 0))
      ∧ (∃ m : Match,
          find_best_anchor ⟨["Full Name: ___".toList], []⟩ "Full Name".toList = some m
          ∧ mkRat 95 100 ≤ m.score)
      ∧ ∀ (rj : RegionRef) (s : ℚ),
          ¬ (norm "Full Name".toList
              <:+: norm (textOf ⟨["Full Name: ___".toList], []⟩ rj)) →
          sim (norm "Full Name".toList) (textOf ⟨["Full Name: ___".toList], []⟩ rj)
            < scoreOf (norm "Full Name".toList)
                (textOf ⟨["Full Name: ___".toList], []⟩ (RegionRef.para 0)) →
          find_best_anchor ⟨["Full Name: ___".toList], []⟩ "Full Name".toList
            ≠ some ⟨rj, s⟩) :=
  ⟨⟨by decide, by decide, by decide⟩,
    substring_boost_selects ⟨["Full Name: ___".toList], []⟩ "Full Name".toList
      (RegionRef.para 0) (by decide) (by show (0 : Nat) < 1; decide)
      (by decide) (by decide)⟩
